/- Verification of the transcript / event subsystem of inspect_ai:
the structural change-detection engine (spec §4.1), the `Transcript`
step/store/state tracking scopes, the `ToolEvent` resolution and
cancellation protocol, the context-local transcript binding, and the
timestamp serialization of `BaseEvent`.  Definitions are shallow
embeddings of `src/inspect_ai/log/_transcript.py`; parts of the
repository that are not under src/ (the diff engine, the
`SAMPLE_SUBTASK` constant, the subtask context machinery) are modelled
from the spec and marked as such. -/

import Mathlib

set_option maxHeartbeats 800000

inductive Json where
  | null : Json
  | bool : Bool → Json
  | num : Int → Json
  | str : String → Json
  | arr : List Json → Json
  | obj : List (String × Json) → Json

inductive PathStep where
  | key : String → PathStep
  | idx : Nat → PathStep

inductive ChangeOp where
  | add : ChangeOp
  | remove : ChangeOp
  | replace : ChangeOp

structure JsonChange where
  path : List PathStep
  op : ChangeOp
  value : Option Json

def pushStep (s : PathStep) (c : JsonChange) : JsonChange :=
  { c with path := s :: c.path }

mutual

def diff : Json → Json → List JsonChange
  | .arr as, .arr bs => arrDiff 0 as bs
  | .obj as, .obj bs => objDiff as bs
  | .null, .null => []
  | .bool a, .bool b => if a = b then [] else [⟨[], .replace, some (.bool b)⟩]
  | .num a, .num b => if a = b then [] else [⟨[], .replace, some (.num b)⟩]
  | .str a, .str b => if a = b then [] else [⟨[], .replace, some (.str b)⟩]
  | _, b => [⟨[], .replace, some b⟩]
termination_by a b => sizeOf a + sizeOf b

def arrDiff : Nat → List Json → List Json → List JsonChange
  | _, [], [] => []
  | i, [], b :: bs => ⟨[.idx i], .add, some b⟩ :: arrDiff (i + 1) [] bs
  | i, _ :: as, [] => arrDiff (i + 1) as [] ++ [⟨[.idx i], .remove, none⟩]
  | i, a :: as, b :: bs =>
      (diff a b).map (pushStep (.idx i)) ++ arrDiff (i + 1) as bs
termination_by _ as bs => sizeOf as + sizeOf bs

def objDiff : List (String × Json) → List (String × Json) → List JsonChange
  | [], [] => []
  | [], (k, b) :: bs => ⟨[.key k], .add, some (b : Json)⟩ :: objDiff [] bs
  | (k, _) :: as, [] => ⟨[.key k], .remove, none⟩ :: objDiff as []
  | (k1, a) :: as, (k2, b) :: bs =>
      if k1 < k2 then ⟨[.key k1], .remove, none⟩ :: objDiff as ((k2, b) :: bs)
      else if k2 < k1 then ⟨[.key k2], .add, some b⟩ :: objDiff ((k1, a) :: as) bs
      else (diff a b).map (pushStep (.key k1)) ++ objDiff as bs
termination_by as bs => sizeOf as + sizeOf bs

end

def insertKey (m : List (String × Json)) (k : String) (v : Json) :
    List (String × Json) :=
  match m with
  | [] => [(k, v)]
  | (k1, v1) :: rest =>
      if k < k1 then (k, v) :: (k1, v1) :: rest
      else (k1, v1) :: insertKey rest k v

def removeKey : List (String × Json) → String → List (String × Json)
  | [], _ => []
  | (k1, v1) :: rest, k =>
      if k1 = k then removeKey rest k else (k1, v1) :: removeKey rest k

def lookupKey (m : List (String × Json)) (k : String) : Option Json :=
  match m with
  | [] => none
  | (k1, v1) :: rest => if k1 = k then some v1 else lookupKey rest k

def setKey : List (String × Json) → String → Json → List (String × Json)
  | [], _, _ => []
  | (k1, v1) :: rest, k, v =>
      if k1 = k then (k, v) :: setKey rest k v else (k1, v1) :: setKey rest k v

def containsKey (m : List (String × Json)) (k : String) : Bool :=
  (lookupKey m k).isSome

def applyAt : Json → List PathStep → ChangeOp → Option Json → Option Json
  | _, [], .replace, some v => some v
  | _, [], _, _ => none
  | .obj m, [.key k], .add, some v => some (.obj (insertKey m k v))
  | .obj m, [.key k], .remove, none =>
      if containsKey m k then some (.obj (removeKey m k)) else none
  | .obj m, .key k :: rest, op, v =>
      match lookupKey m k with
      | some a => (applyAt a rest op v).map (fun c => .obj (setKey m k c))
      | none => none
  | .arr l, [.idx i], .add, some v =>
      if i ≤ l.length then some (.arr (List.insertIdx i v l)) else none
  | .arr l, [.idx i], .remove, none =>
      if i < l.length then some (.arr (l.eraseIdx i)) else none
  | .arr l, .idx i :: rest, op, v =>
      match l.get? i with
      | some a => (applyAt a rest op v).map (fun c => .arr (l.set i c))
      | none => none
  | _, _, _, _ => none

def applyOne (j : Json) (c : JsonChange) : Option Json :=
  applyAt j c.path c.op c.value

def applyChanges : Json → List JsonChange → Option Json
  | j, [] => some j
  | j, c :: cs =>
      match applyOne j c with
      | some j1 => applyChanges j1 cs
      | none => none

def keysSorted : List String → Bool
  | [] => true
  | [_] => true
  | a :: b :: t => decide (a < b) && keysSorted (b :: t)

mutual

def canon : Json → Bool
  | .null => true
  | .bool _ => true
  | .num _ => true
  | .str _ => true
  | .arr l => canonList l
  | .obj m => keysSorted (m.map Prod.fst) && canonFields m

def canonList : List Json → Bool
  | [] => true
  | x :: xs => canon x && canonList xs

def canonFields : List (String × Json) → Bool
  | [] => true
  | (_, v) :: xs => canon v && canonFields xs

end

/-- Well-formedness of a change record as emitted by the diff engine: a
record aimed at the root of the current subtree can only be a replace
carrying a value. -/
def WfC (c : JsonChange) : Prop :=
  c.path ≠ [] ∨ (c.op = .replace ∧ c.value.isSome)

/-- Action marker of a step event (`StepEvent.action`). -/
inductive StepAction where
  | begin : StepAction
  | end_ : StepAction
deriving DecidableEq

/-- The closed set of event variants of `_transcript.py`.  External payload
types (chat messages, model output, scores, ...) are represented as `Json`
or `String` snapshots; the common `timestamp` field of `BaseEvent` is
modelled separately by `PyDatetime`/`serialize_timestamp` since no event
sequencing claim depends on it. -/
inductive EventM where
  | sample_init (sample : Json) (state : Json)
  | sample_limit (ltype : String) (message : String) (limit : Option Int)
  | store (changes : List JsonChange)
  | state (changes : List JsonChange)
  | model (mname : String) (output : Json) (error : Option String)
  | tool (id : String) (function : String) (arguments : Json) (result : Json)
      (truncated : Option (Nat × Nat)) (error : Option String)
      (events : List EventM) (pending : Option Bool)
  | approval (message : String) (approver : String) (decision : String)
  | input (input : String) (input_ansi : String)
  | logger (message : String)
  | info (data : Json)
  | error (err : String)
  | score (score : Json) (target : Option String)
  | step (action : StepAction) (type : Option String) (name : String)
  | subtask (name : String) (type : Option String) (input : Json)
      (result : Json)

/-- `ToolEvent` as a mutable record: the resolution fields, the common
`pending` flag, and the private cancellation state (`_cancelled`,
`_task`); the `asyncio.Task` handle is abstracted to its presence. -/
structure ToolEventM where
  id : String
  function : String
  arguments : Json
  view : Option String
  result : Json
  truncated : Option (Nat × Nat)
  error : Option String
  events : List EventM
  pending : Option Bool
  _cancelled : Option Bool
  _task : Option Unit

/-- `ToolEvent._set_result`: finalize the event with result, truncation
range, error and nested events, and clear `pending`. -/
def ToolEventM._set_result (e : ToolEventM) (result : Json)
    (truncated : Option (Nat × Nat)) (error : Option String)
    (events : List EventM) : ToolEventM :=
  { e with
    result := result
    truncated := truncated
    error := error
    events := events
    pending := none }

/-- `ToolEvent._set_task`: record the task handle used for cancellation. -/
def ToolEventM._set_task (e : ToolEventM) (task : Unit) : ToolEventM :=
  { e with _task := some task }

/-- `ToolEvent._cancel`: if a task handle is present, set the cancelled
marker (and cancel the underlying task, an external effect); otherwise do
nothing. -/
def ToolEventM._cancel (e : ToolEventM) : ToolEventM :=
  match e._task with
  | some _ => { e with _cancelled := some true }
  | none => e

/-- `ToolEvent.cancelled` property: `self._cancelled is True`. -/
def ToolEventM.cancelled (e : ToolEventM) : Bool :=
  e._cancelled = some true

/-- Modelled from the spec: tool-call events are created by their caller
(code not under src/) with `pending=True` and no cancellation state. -/
def fresh_tool_event (id function : String) (arguments : Json) : ToolEventM :=
  { id := id, function := function, arguments := arguments, view := none,
    result := .str "", truncated := none, error := none, events := [],
    pending := some true, _cancelled := none, _task := none }

/-- `Transcript`: a name and an ordered event sequence. -/
structure Transcript where
  name : String
  _events : List EventM

/-- `Transcript.__init__(name="")`. -/
def Transcript.new (name : String := "") : Transcript :=
  { name := name, _events := [] }

/-- `Transcript._event`: the single internal append primitive. -/
def Transcript._event (t : Transcript) (e : EventM) : Transcript :=
  { t with _events := t._events ++ [e] }

/-- `Transcript.info`: append an `InfoEvent`. -/
def Transcript.info (t : Transcript) (data : Json) : Transcript :=
  t._event (.info data)

/-- `Transcript.events`: read-only view of the event sequence. -/
def Transcript.events (t : Transcript) : List EventM :=
  t._events

/-- Modelled from the spec: the reserved sentinel name of the top-level
sample subtask scope (constant `SAMPLE_SUBTASK` of
`inspect_ai._util.constants`, not under src/). -/
def SAMPLE_SUBTASK : String := "sample"

/-- Ambient state visible to a step scope: the context's current
transcript, the mutable `Store` snapshot and the `TaskState` snapshot,
each represented by its jsonable image. -/
structure World where
  tr : Transcript
  store : Json
  state : Json

/-- A bracketed unit of work: runs on the world and reports `true` for
normal completion or `false` when it raises or is cancelled (the
exception then propagates through the scope). -/
abbrev Body := World → World × Bool

/-- `json_changes` (spec §4.1): diff of two jsonable snapshots. -/
def json_changes (before after : Json) : List JsonChange :=
  diff before after

/-- `store_changes`: diff of two store snapshots. -/
def store_changes (before after : Json) : List JsonChange :=
  json_changes before after

/-- `track_store_changes`: snapshot the store before and after the scoped
work and append a `StoreEvent` only when the diff is non-empty.  On an
abnormal exit the generator is unwound at its yield, so neither the second
snapshot nor any event happens. -/
def track_store_changes_run (body : Body) (w : World) : World × Bool :=
  let before := w.store
  let r := body w
  if r.2 then
    let after := r.1.store
    let changes := store_changes before after
    if changes.isEmpty then (r.1, true)
    else ({ r.1 with tr := r.1.tr._event (.store changes) }, true)
  else (r.1, false)

/-- `track_state_changes`: engaged only when the current transcript is the
top-level sample scope and the step type is not "solver"; otherwise a
plain pass-through around the body. -/
def track_state_changes_run (type : Option String) (body : Body)
    (w : World) : World × Bool :=
  if w.tr.name = SAMPLE_SUBTASK ∧ type ≠ some "solver" then
    let before := w.state
    let r := body w
    if r.2 then
      let after := r.1.state
      let changes := json_changes before after
      if changes.isEmpty then (r.1, true)
      else ({ r.1 with tr := r.1.tr._event (.state changes) }, true)
    else (r.1, false)
  else body w

/-- `Transcript.step`: append a begin marker, run the body inside the
state- and store-change tracking wrappers, and append the end marker only
when the body completed normally (the generator has no finally clause, so
an exception unwinds it before the end event line). -/
def step_run (name : String) (type : Option String) (body : Body)
    (w : World) : World × Bool :=
  let w1 := { w with tr := w.tr._event (.step .begin type name) }
  let r := track_state_changes_run type (track_store_changes_run body) w1
  if r.2 then
    ({ r.1 with tr := r.1.tr._event (.step .end_ type name) }, true)
  else (r.1, false)

/-- A body only ever appends to the current transcript (the discipline all
transcript-producing code in the repository follows). -/
def AppendOnly (body : Body) : Prop :=
  ∀ w : World, ∃ l : List EventM, ((body w).1).tr._events = w.tr._events ++ l

/-- An execution context: its context-variable binding for the current
transcript, if any (`_transcript : ContextVar[Transcript]`). -/
structure Ctx where
  binding : Option Transcript

/-- The process-wide default transcript used before any binding is
established (`ContextVar("subtask_transcript", default=Transcript())`). -/
def default_transcript : Transcript :=
  Transcript.new

/-- `transcript()`: the transcript bound to the calling context. -/
def transcript (c : Ctx) : Transcript :=
  c.binding.getD default_transcript

/-- `init_transcript`: rebind the current context's transcript. -/
def init_transcript (c : Ctx) (t : Transcript) : Ctx :=
  { c with binding := some t }

/-- Modelled from the spec: a subtask runs its body in a copy of the
parent context (the context-propagation machinery is not under src/);
the parent keeps its own context value. -/
def run_subtask (c : Ctx) (child : Ctx → Ctx) : Ctx × Ctx :=
  (c, child c)

/-- A `datetime` value: an instant (minutes since the epoch) and an
optional timezone offset in minutes (none = naive). -/
structure PyDatetime where
  minutesUtc : Int
  utcoffset : Option Int

/-- `datetime.astimezone()` with no argument: convert to local time,
producing an aware datetime carrying the ambient local offset. -/
def astimezone (localOffset : Int) (d : PyDatetime) : PyDatetime :=
  { minutesUtc := d.minutesUtc, utcoffset := some localOffset }

/-- Zero-padded two-digit decimal rendering used in offset suffixes. -/
def two_digits (n : Nat) : String :=
  (if n < 10 then "0" else "") ++ toString n

/-- The `+HH:MM` / `-HH:MM` timezone suffix of an aware ISO-8601 string. -/
def offset_suffix (o : Int) : String :=
  (if o < 0 then "-" else "+") ++ two_digits (o.natAbs / 60) ++ ":" ++
    two_digits (o.natAbs % 60)

/-- The date-time body of an ISO-8601 rendering (wall-clock part). -/
def wall_clock (d : PyDatetime) : String :=
  toString (d.minutesUtc + (d.utcoffset.getD 0))

/-- `datetime.isoformat()`: the wall-clock body, followed by the offset
suffix exactly when the value is timezone-aware. -/
def isoformat (d : PyDatetime) : String :=
  wall_clock d ++
    (match d.utcoffset with
     | none => ""
     | some o => offset_suffix o)

/-- `BaseEvent.serialize_timestamp`: `dt.astimezone().isoformat()`. -/
def serialize_timestamp (localOffset : Int) (dt : PyDatetime) : String :=
  isoformat (astimezone localOffset dt)

/-- World at the start of a top-level sample scope. -/
def sample_world : World :=
  { tr := Transcript.new SAMPLE_SUBTASK, store := .null, state := .null }

/-- A body that raises (or is cancelled): the exception propagates. -/
def failing_body : Body := fun w => (w, false)

/-- A body that completes normally without touching anything. -/
def ok_body : Body := fun w => (w, true)

/-- Recognizer for a step-end event with the given name and type. -/
def is_step_end (name : String) (type : Option String) (e : EventM) : Bool :=
  match e with
  | .step .end_ t n => n == name && t == type
  | _ => false

/-- Recognizer for a step-begin event with the given name and type. -/
def is_step_begin (name : String) (type : Option String) (e : EventM) : Bool :=
  match e with
  | .step .begin t n => n == name && t == type
  | _ => false

/-- Append one event to the world's current transcript. -/
def with_event (w : World) (e : EventM) : World :=
  { w with tr := w.tr._event e }

/-- A tool-call event whose task handle has been set and which has then
been resolved: `pending` is cleared but `_task` is still present. -/
def resolved_with_task : ToolEventM :=
  ((fresh_tool_event "call1" "bash" .null)._set_task ())._set_result
    (.str "done") none none []

/-- A pending tool-call event resolved once. -/
def resolved_once : ToolEventM :=
  (fresh_tool_event "call2" "bash" .null)._set_result (.str "one") none none []

/-- The same event resolved a second time with a different result. -/
def resolved_twice : ToolEventM :=
  resolved_once._set_result (.str "two") none none []

/-- A body that writes a new value into the store and completes. -/
def store_writing_body : Body :=
  fun w => ({ w with store := Json.num 1 }, true)

/-- A body that writes a new value into the task state and completes. -/
def state_writing_body : Body :=
  fun w => ({ w with state := Json.num 2 }, true)

theorem applyChanges_append (l1 l2 : List JsonChange) (j : Json) :
    applyChanges j (l1 ++ l2) =
      (applyChanges j l1).bind fun j1 => applyChanges j1 l2 := by
  induction l1 generalizing j with
  | nil => simp [applyChanges]
  | cons c cs ih =>
      simp only [List.cons_append, applyChanges]
      cases applyOne j c with
      | none => simp
      | some j1 => simpa using ih j1

theorem set_len_append (l1 l2 : List α) (a b : α) :
    (l1 ++ a :: l2).set l1.length b = l1 ++ b :: l2 := by
  induction l1 with
  | nil => simp
  | cons x xs ih => simp [ih]

theorem get?_len_append (l1 l2 : List α) (a : α) :
    (l1 ++ a :: l2).get? l1.length = some a := by
  induction l1 with
  | nil => simp
  | cons x xs ih => simpa using ih

theorem eraseIdx_len_append (l1 l2 : List α) (a : α) :
    (l1 ++ a :: l2).eraseIdx l1.length = l1 ++ l2 := by
  induction l1 with
  | nil => simp
  | cons x xs ih => simp [ih]

theorem lookupKey_setKey (m : List (String × Json)) (k : String) (v : Json) :
    lookupKey m k = none ∨ lookupKey (setKey m k v) k = some v := by
  induction m with
  | nil => exact Or.inl rfl
  | cons p rest ih =>
      obtain ⟨k1, v1⟩ := p
      by_cases h : k1 = k
      · subst h
        right
        simp [setKey, lookupKey]
      · rcases ih with h1 | h1
        · left
          simpa [lookupKey, h] using h1
        · right
          simpa [setKey, lookupKey, h] using h1

theorem setKey_setKey (m : List (String × Json)) (k : String) (v w : Json) :
    setKey (setKey m k v) k w = setKey m k w := by
  induction m with
  | nil => rfl
  | cons p rest ih =>
      obtain ⟨k1, v1⟩ := p
      by_cases h : k1 = k <;> simp [setKey, h, ih]

theorem setKey_keys (m : List (String × Json)) (k : String) (v : Json) :
    (setKey m k v).map Prod.fst = m.map Prod.fst := by
  induction m with
  | nil => rfl
  | cons p rest ih =>
      obtain ⟨k1, v1⟩ := p
      by_cases h : k1 = k
      · subst h
        simp [setKey, ih]
      · simp [setKey, h, ih]

theorem setKey_of_notMem (m : List (String × Json)) (k : String) (v : Json) :
    k ∉ m.map Prod.fst → setKey m k v = m := by
  induction m with
  | nil => intro _; rfl
  | cons p rest ih =>
      obtain ⟨k1, v1⟩ := p
      intro h
      simp only [List.map_cons, List.mem_cons, not_or] at h
      have h1 : ¬(k1 = k) := fun e => h.1 e.symm
      simp [setKey, h1, ih h.2]

theorem setKey_self (m : List (String × Json)) (k : String) (a : Json) :
    lookupKey m k = some a → (m.map Prod.fst).Nodup → setKey m k a = m := by
  induction m with
  | nil => intro h _; cases h
  | cons p rest ih =>
      obtain ⟨k1, v1⟩ := p
      intro hl hnd
      simp only [List.map_cons, List.nodup_cons] at hnd
      by_cases h : k1 = k
      · subst h
        simp only [lookupKey] at hl
        have hva : v1 = a := by simpa using hl
        subst hva
        simp [setKey, setKey_of_notMem rest k1 v1 hnd.1]
      · simp only [lookupKey] at hl
        rw [if_neg h] at hl
        simp [setKey, h, ih hl hnd.2]

theorem applyOne_push_key (m : List (String × Json)) (k : String) (a : Json)
    (c : JsonChange) (hwf : WfC c) (hl : lookupKey m k = some a) :
    applyOne (.obj m) (pushStep (.key k) c) =
      (applyOne a c).map fun x => .obj (setKey m k x) := by
  rcases c with ⟨path, op, v⟩
  cases path with
  | nil =>
      rcases hwf with h | ⟨hop, hv⟩
      · simp at h
      · simp only at hop
        subst hop
        rcases v with _ | v0
        · simp at hv
        · simp [pushStep, applyOne, applyAt, hl]
  | cons s rest =>
      cases op <;> simp [pushStep, applyOne, applyAt, hl]

theorem applyChanges_push_key (cs : List JsonChange) (m : List (String × Json))
    (k : String) (a : Json) (hwf : ∀ c ∈ cs, WfC c)
    (hl : lookupKey m k = some a) (hnd : (m.map Prod.fst).Nodup) :
    applyChanges (.obj m) (cs.map (pushStep (.key k))) =
      (applyChanges a cs).map fun x => .obj (setKey m k x) := by
  induction cs generalizing m a with
  | nil => simp [applyChanges, setKey_self m k a hl hnd]
  | cons c cs ih =>
      simp only [List.map_cons, applyChanges]
      rw [applyOne_push_key m k a c (hwf c (List.mem_cons_self c cs)) hl]
      cases hone : applyOne a c with
      | none => simp
      | some a1 =>
          rcases lookupKey_setKey m k a1 with hbad | hgood
          · rw [hl] at hbad
            exact absurd hbad (by simp)
          · have hnd1 : ((setKey m k a1).map Prod.fst).Nodup := by
              rw [setKey_keys]; exact hnd
            have hred :
                (match Option.map (fun x => Json.obj (setKey m k x)) (some a1) with
                  | some j1 => applyChanges j1 (cs.map (pushStep (.key k)))
                  | none => none) =
                applyChanges (Json.obj (setKey m k a1))
                  (cs.map (pushStep (.key k))) := rfl
            rw [hred, ih (setKey m k a1) a1
              (fun c hc => hwf c (List.mem_cons_of_mem _ hc)) hgood hnd1]
            simp [setKey_setKey]

theorem set_get_self (l : List Json) (i : Nat) (a : Json) :
    l[i]? = some a → l.set i a = l := by
  induction l generalizing i with
  | nil => intro h; cases h
  | cons x xs ih =>
      intro h
      cases i with
      | zero =>
          simp at h
          simp [List.set, h]
      | succ n =>
          simp at h
          simp [List.set, ih n h]

theorem applyOne_push_idx (l : List Json) (i : Nat) (a : Json)
    (c : JsonChange) (hwf : WfC c) (hg : l[i]? = some a) :
    applyOne (.arr l) (pushStep (.idx i) c) =
      (applyOne a c).map fun x => .arr (l.set i x) := by
  rcases c with ⟨path, op, v⟩
  cases path with
  | nil =>
      rcases hwf with h | ⟨hop, hv⟩
      · simp at h
      · simp only at hop
        subst hop
        rcases v with _ | v0
        · simp at hv
        · simp [pushStep, applyOne, applyAt, hg]
  | cons s rest =>
      cases op <;> simp [pushStep, applyOne, applyAt, hg]

theorem applyChanges_push_idx (cs : List JsonChange) (l : List Json)
    (i : Nat) (a : Json) (hwf : ∀ c ∈ cs, WfC c) (hg : l[i]? = some a) :
    applyChanges (.arr l) (cs.map (pushStep (.idx i))) =
      (applyChanges a cs).map fun x => .arr (l.set i x) := by
  induction cs generalizing l a with
  | nil => simp [applyChanges, set_get_self l i a hg]
  | cons c cs ih =>
      simp only [List.map_cons, applyChanges]
      rw [applyOne_push_idx l i a c (hwf c (List.mem_cons_self c cs)) hg]
      cases hone : applyOne a c with
      | none => simp
      | some a1 =>
          have hi : i < l.length := (List.getElem?_eq_some.mp hg).1
          have hg1 : (l.set i a1)[i]? = some a1 :=
            List.getElem?_set_eq_of_lt a1 hi
          have hred :
              (match Option.map (fun x => Json.arr (l.set i x)) (some a1) with
                | some j1 => applyChanges j1 (cs.map (pushStep (.idx i)))
                | none => none) =
              applyChanges (Json.arr (l.set i a1))
                (cs.map (pushStep (.idx i))) := rfl
          rw [hred, ih (l.set i a1) a1
            (fun c hc => hwf c (List.mem_cons_of_mem _ hc)) hg1]
          simp [List.set_set]

theorem lookupKey_append_right (pre rest : List (String × Json)) (k : String)
    (h : k ∉ pre.map Prod.fst) :
    lookupKey (pre ++ rest) k = lookupKey rest k := by
  induction pre with
  | nil => rfl
  | cons p l ih =>
      obtain ⟨k1, v1⟩ := p
      simp only [List.map_cons, List.mem_cons, not_or] at h
      have h1 : ¬(k1 = k) := fun e => h.1 e.symm
      simp only [List.cons_append, lookupKey]
      rw [if_neg h1]
      exact ih h.2

theorem lookupKey_cons_self (k : String) (a : Json)
    (rest : List (String × Json)) :
    lookupKey ((k, a) :: rest) k = some a := by
  simp [lookupKey]

theorem insertKey_append (pre rest : List (String × Json)) (k : String)
    (v : Json) (h : ∀ p ∈ pre, ¬(k < p.1)) :
    insertKey (pre ++ rest) k v = pre ++ insertKey rest k v := by
  induction pre with
  | nil => rfl
  | cons p l ih =>
      obtain ⟨k1, v1⟩ := p
      simp only [List.cons_append, insertKey]
      rw [if_neg (h (k1, v1) (List.mem_cons_self _ _))]
      simp only [List.append_eq]
      rw [ih (fun p hp => h p (List.mem_cons_of_mem _ hp))]

theorem insertKey_cons_lt (k k1 : String) (v v1 : Json)
    (rest : List (String × Json)) (h : k < k1) :
    insertKey ((k1, v1) :: rest) k v = (k, v) :: (k1, v1) :: rest := by
  simp [insertKey, h]

theorem removeKey_append (pre rest : List (String × Json)) (k : String)
    (h : k ∉ pre.map Prod.fst) :
    removeKey (pre ++ rest) k = pre ++ removeKey rest k := by
  induction pre with
  | nil => rfl
  | cons p l ih =>
      obtain ⟨k1, v1⟩ := p
      simp only [List.map_cons, List.mem_cons, not_or] at h
      simp only [List.cons_append, removeKey]
      rw [if_neg (fun e => h.1 e.symm)]
      simp only [List.append_eq]
      rw [ih h.2]

theorem removeKey_of_notMem (m : List (String × Json)) (k : String)
    (h : k ∉ m.map Prod.fst) : removeKey m k = m := by
  induction m with
  | nil => rfl
  | cons p l ih =>
      obtain ⟨k1, v1⟩ := p
      simp only [List.map_cons, List.mem_cons, not_or] at h
      simp only [removeKey]
      rw [if_neg (fun e => h.1 e.symm), ih h.2]

theorem removeKey_cons_self (k : String) (a : Json)
    (rest : List (String × Json)) :
    removeKey ((k, a) :: rest) k = removeKey rest k := by
  simp [removeKey]

theorem containsKey_append_cons (pre rest : List (String × Json)) (k : String)
    (a : Json) : containsKey (pre ++ (k, a) :: rest) k = true := by
  induction pre with
  | nil => simp [containsKey, lookupKey]
  | cons p l ih =>
      obtain ⟨k1, v1⟩ := p
      by_cases h : k1 = k
      · simp [containsKey, lookupKey, h]
      · simpa [containsKey, lookupKey, h] using ih

theorem setKey_append (pre rest : List (String × Json)) (k : String) (v : Json)
    (h : k ∉ pre.map Prod.fst) :
    setKey (pre ++ rest) k v = pre ++ setKey rest k v := by
  induction pre with
  | nil => rfl
  | cons p l ih =>
      obtain ⟨k1, v1⟩ := p
      simp only [List.map_cons, List.mem_cons, not_or] at h
      have h1 : ¬(k1 = k) := fun e => h.1 e.symm
      simp only [List.cons_append, setKey]
      rw [if_neg h1]
      simp only [List.append_eq]
      rw [ih h.2]

theorem setKey_cons_self (k : String) (a b : Json)
    (rest : List (String × Json)) :
    setKey ((k, a) :: rest) k b = (k, b) :: setKey rest k b := by
  simp [setKey]

theorem nodup_keys_of_pairwise (m : List (String × Json))
    (h : m.Pairwise (fun p q => p.1 < q.1)) : (m.map Prod.fst).Nodup := by
  rw [List.Nodup, List.pairwise_map]
  exact h.imp ne_of_lt

theorem arrDiff_path (n : Nat) : ∀ (i : Nat) (as bs : List Json),
    as.length + bs.length ≤ n → ∀ c ∈ arrDiff i as bs, c.path ≠ [] := by
  induction n with
  | zero =>
      intro i as bs hn c hc
      rcases as with _ | ⟨a, as⟩ <;> rcases bs with _ | ⟨b, bs⟩ <;> simp at hn
      · simp [arrDiff] at hc
  | succ n ih =>
      intro i as bs hn c hc
      rcases as with _ | ⟨a, as⟩ <;> rcases bs with _ | ⟨b, bs⟩
      · simp [arrDiff] at hc
      · simp only [arrDiff, List.mem_cons] at hc
        rcases hc with rfl | hc
        · simp
        · exact ih (i + 1) [] bs (by simp at hn ⊢; omega) c hc
      · simp only [arrDiff, List.mem_append, List.mem_singleton] at hc
        rcases hc with hc | rfl
        · exact ih (i + 1) as [] (by simp at hn ⊢; omega) c hc
        · simp
      · simp only [arrDiff, List.mem_append] at hc
        rcases hc with hc | hc
        · obtain ⟨c0, _, rfl⟩ := List.mem_map.mp hc
          simp [pushStep]
        · exact ih (i + 1) as bs (by simp at hn ⊢; omega) c hc

theorem objDiff_path (n : Nat) : ∀ (as bs : List (String × Json)),
    as.length + bs.length ≤ n → ∀ c ∈ objDiff as bs, c.path ≠ [] := by
  induction n with
  | zero =>
      intro as bs hn c hc
      rcases as with _ | ⟨a, as⟩ <;> rcases bs with _ | ⟨b, bs⟩ <;> simp at hn
      · simp [objDiff] at hc
  | succ n ih =>
      intro as bs hn c hc
      rcases as with _ | ⟨⟨k1, a⟩, as⟩ <;> rcases bs with _ | ⟨⟨k2, b⟩, bs⟩
      · simp [objDiff] at hc
      · simp only [objDiff, List.mem_cons] at hc
        rcases hc with rfl | hc
        · simp
        · exact ih [] bs (by simp at hn ⊢; omega) c hc
      · simp only [objDiff, List.mem_cons] at hc
        rcases hc with rfl | hc
        · simp
        · exact ih as [] (by simp at hn ⊢; omega) c hc
      · simp only [objDiff] at hc
        by_cases h12 : k1 < k2
        · rw [if_pos h12] at hc
          rcases List.mem_cons.mp hc with rfl | hc
          · simp
          · exact ih as ((k2, b) :: bs) (by simp at hn ⊢; omega) c hc
        · rw [if_neg h12] at hc
          by_cases h21 : k2 < k1
          · rw [if_pos h21] at hc
            rcases List.mem_cons.mp hc with rfl | hc
            · simp
            · exact ih ((k1, a) :: as) bs (by simp at hn ⊢; omega) c hc
          · rw [if_neg h21] at hc
            rcases List.mem_append.mp hc with hc | hc
            · obtain ⟨c0, _, rfl⟩ := List.mem_map.mp hc
              simp [pushStep]
            · exact ih as bs (by simp at hn ⊢; omega) c hc

theorem diff_wf (a b : Json) : ∀ c ∈ diff a b, WfC c := by
  intro c hc
  have hrep : ∀ (v : Json), c ∈ [(⟨[], .replace, some v⟩ : JsonChange)] → WfC c := by
    intro v hv
    rw [List.mem_singleton] at hv
    subst hv
    exact Or.inr ⟨rfl, rfl⟩
  cases a <;> cases b <;>
    first
    | (apply hrep
       simpa [diff] using hc)
    | skip
  all_goals simp only [diff] at hc
  case null.null => simp at hc
  case bool.bool x y =>
      by_cases h : x = y
      · simp [h] at hc
      · rw [if_neg h] at hc
        exact hrep _ hc
  case num.num x y =>
      by_cases h : x = y
      · simp [h] at hc
      · rw [if_neg h] at hc
        exact hrep _ hc
  case str.str x y =>
      by_cases h : x = y
      · simp [h] at hc
      · rw [if_neg h] at hc
        exact hrep _ hc
  case arr.arr as bs =>
      exact Or.inl (arrDiff_path (as.length + bs.length) 0 as bs le_rfl c hc)
  case obj.obj as bs =>
      exact Or.inl (objDiff_path (as.length + bs.length) as bs le_rfl c hc)

theorem pairwise_insert_middle {R : (String × Json) → (String × Json) → Prop}
    (pre rest : List (String × Json)) (x : String × Json)
    (hpr : (pre ++ rest).Pairwise R)
    (h1 : ∀ p ∈ pre, R p x) (h2 : ∀ q ∈ rest, R x q) :
    (pre ++ x :: rest).Pairwise R := by
  rw [List.pairwise_append] at hpr ⊢
  refine ⟨hpr.1, ?_, ?_⟩
  · rw [List.pairwise_cons]
    exact ⟨h2, hpr.2.1⟩
  · intro p hp q hq
    rcases List.mem_cons.mp hq with rfl | hq
    · exact h1 p hp
    · exact hpr.2.2 p hp q hq

theorem keys_lt_of_pairwise_append (pre rest : List (String × Json))
    (x : String × Json) (h : (pre ++ x :: rest).Pairwise (fun p q => p.1 < q.1)) :
    (∀ p ∈ pre, p.1 < x.1) ∧ (∀ q ∈ rest, x.1 < q.1) ∧
      ((pre ++ rest).Pairwise (fun p q => p.1 < q.1)) := by
  rw [List.pairwise_append] at h
  have hx := h.2.1
  rw [List.pairwise_cons] at hx
  refine ⟨fun p hp => h.2.2 p hp x (List.mem_cons_self _ _), hx.1, ?_⟩
  rw [List.pairwise_append]
  exact ⟨h.1, hx.2, fun p hp q hq => h.2.2 p hp q (List.mem_cons_of_mem _ hq)⟩

theorem notMem_keys_of_lt (pre : List (String × Json)) (k : String)
    (h : ∀ p ∈ pre, p.1 < k) : k ∉ pre.map Prod.fst := by
  intro hk
  obtain ⟨p, hp, rfl⟩ := List.mem_map.mp hk
  exact lt_irrefl _ (h p hp)

theorem notMem_keys_of_gt (rest : List (String × Json)) (k : String)
    (h : ∀ q ∈ rest, k < q.1) : k ∉ rest.map Prod.fst := by
  intro hk
  obtain ⟨q, hq, rfl⟩ := List.mem_map.mp hk
  exact lt_irrefl _ (h q hq)

theorem objDiff_rt (n : Nat) : ∀ (olds news pre : List (String × Json)),
    olds.length + news.length ≤ n →
    (∀ x ∈ olds.map Prod.snd, ∀ y ∈ news.map Prod.snd,
        applyChanges x (diff x y) = some y) →
    (pre ++ olds).Pairwise (fun p q => p.1 < q.1) →
    (pre ++ news).Pairwise (fun p q => p.1 < q.1) →
    applyChanges (.obj (pre ++ olds)) (objDiff olds news) =
      some (.obj (pre ++ news)) := by
  induction n with
  | zero =>
      intro olds news pre hn hel hs1 hs2
      rcases olds with _ | ⟨⟨k1, a⟩, olds⟩ <;>
        rcases news with _ | ⟨⟨k2, b⟩, news⟩ <;> simp at hn
      · simp [objDiff, applyChanges]
  | succ n ih =>
      intro olds news pre hn hel hs1 hs2
      rcases olds with _ | ⟨⟨k1, a⟩, olds⟩ <;>
        rcases news with _ | ⟨⟨k2, b⟩, news⟩
      · simp [objDiff, applyChanges]
      · -- only additions remain
        obtain ⟨hlt2, -, -⟩ := keys_lt_of_pairwise_append pre news (k2, b) hs2
        have hins : insertKey (pre ++ []) k2 b = pre ++ [(k2, b)] := by
          rw [insertKey_append pre [] k2 b
            (fun p hp => asymm (hlt2 p hp))]
          rfl
        simp only [objDiff, applyChanges, applyOne, applyAt, hins]
        have := ih [] news (pre ++ [(k2, b)]) (by simp at hn ⊢; omega)
          (fun x hx => absurd hx (by simp))
          (by simpa using (hs2.sublist
            (by
              refine List.Sublist.append (List.Sublist.refl pre) ?_
              simp)))
          (by simpa using hs2)
        simpa using this
      · -- only removals remain
        obtain ⟨hlt1, hgt1, hrest1⟩ :=
          keys_lt_of_pairwise_append pre olds (k1, a) hs1
        have hcon := containsKey_append_cons pre olds k1 a
        have hrem : removeKey (pre ++ (k1, a) :: olds) k1 = pre ++ olds := by
          rw [removeKey_append pre _ k1 (notMem_keys_of_lt pre k1 hlt1),
            removeKey_cons_self,
            removeKey_of_notMem olds k1 (notMem_keys_of_gt olds k1 hgt1)]
        simp only [objDiff, applyChanges, applyOne, applyAt, hcon, if_true, hrem]
        have := ih olds [] pre (by simp at hn ⊢; omega)
          (fun x hx y hy => hel x (by simp [hx]) y hy)
          hrest1 hs2
        simpa using this
      · rcases lt_trichotomy k1 k2 with hlt | heq | hgt
        · -- removal of the smaller old key
          obtain ⟨hlt1, hgt1, hrest1⟩ :=
            keys_lt_of_pairwise_append pre olds (k1, a) hs1
          have hcon := containsKey_append_cons pre olds k1 a
          have hrem : removeKey (pre ++ (k1, a) :: olds) k1 = pre ++ olds := by
            rw [removeKey_append pre _ k1 (notMem_keys_of_lt pre k1 hlt1),
              removeKey_cons_self,
              removeKey_of_notMem olds k1 (notMem_keys_of_gt olds k1 hgt1)]
          simp only [objDiff, if_pos hlt]
          simp only [applyChanges, applyOne, applyAt, hcon, if_true, hrem]
          have := ih olds ((k2, b) :: news) pre (by simp at hn ⊢; omega)
            (fun x hx y hy => hel x (by simp [hx]) y hy)
            hrest1 hs2
          simpa using this
        · -- equal keys: recurse into the value
          subst heq
          obtain ⟨hlt1, hgt1, hrest1⟩ :=
            keys_lt_of_pairwise_append pre olds (k1, a) hs1
          obtain ⟨hlt2, hgt2, hrest2⟩ :=
            keys_lt_of_pairwise_append pre news (k1, b) hs2
          have hnp1 := notMem_keys_of_lt pre k1 hlt1
          have hlk : lookupKey (pre ++ (k1, a) :: olds) k1 = some a := by
            rw [lookupKey_append_right pre _ k1 hnp1, lookupKey_cons_self]
          have hset : setKey (pre ++ (k1, a) :: olds) k1 b =
              pre ++ (k1, b) :: olds := by
            rw [setKey_append pre _ k1 b hnp1, setKey_cons_self,
              setKey_of_notMem olds k1 b (notMem_keys_of_gt olds k1 hgt1)]
          simp only [objDiff, lt_irrefl, if_false]
          rw [applyChanges_append]
          rw [applyChanges_push_key (diff a b) (pre ++ (k1, a) :: olds) k1 a
            (diff_wf a b) hlk (nodup_keys_of_pairwise _ hs1)]
          rw [hel a (by simp) b (by simp)]
          simp only [Option.map_some', hset, Option.some_bind]
          have hmid : (pre ++ (k1, b) :: olds).Pairwise
              (fun p q => p.1 < q.1) :=
            pairwise_insert_middle pre olds (k1, b) hrest1
              (fun p hp => hlt1 p hp) (fun q hq => hgt1 q hq)
          have := ih olds news (pre ++ [(k1, b)]) (by simp at hn ⊢; omega)
            (fun x hx y hy => hel x (by simp [hx]) y (by simp [hy]))
            (by simpa using hmid)
            (by simpa using hs2)
          simpa using this
        · -- addition of the smaller new key
          obtain ⟨hlt1, hgt1, hrest1⟩ :=
            keys_lt_of_pairwise_append pre olds (k1, a) hs1
          obtain ⟨hlt2, hgt2, hrest2⟩ :=
            keys_lt_of_pairwise_append pre news (k2, b) hs2
          have hins : insertKey (pre ++ (k1, a) :: olds) k2 b =
              pre ++ (k2, b) :: (k1, a) :: olds := by
            rw [insertKey_append pre _ k2 b (fun p hp => asymm (hlt2 p hp)),
              insertKey_cons_lt k2 k1 b a olds hgt]
          simp only [objDiff, if_neg (asymm hgt), if_pos hgt]
          simp only [applyChanges, applyOne, applyAt, hins]
          have hmid : ((pre ++ [(k2, b)]) ++ (k1, a) :: olds).Pairwise
              (fun p q => p.1 < q.1) := by
            rw [List.append_assoc]
            simp only [List.singleton_append]
            refine pairwise_insert_middle pre ((k1, a) :: olds) (k2, b) hs1
              (fun p hp => hlt2 p hp) ?_
            intro q hq
            rcases List.mem_cons.mp hq with rfl | hq
            · exact hgt
            · exact lt_trans hgt (hgt1 q hq)
          have := ih ((k1, a) :: olds) news (pre ++ [(k2, b)])
            (by simp at hn ⊢; omega)
            (fun x hx y hy => hel x hx y (by simp [hy]))
            hmid
            (by simpa using hs2)
          simpa using this

theorem getElem?_len_append (l1 l2 : List α) (a : α) :
    (l1 ++ a :: l2)[l1.length]? = some a := by
  induction l1 with
  | nil => simp
  | cons x xs ih => simpa using ih

theorem insertIdx_len_append (l1 l2 : List α) (v : α) :
    List.insertIdx l1.length v (l1 ++ l2) = l1 ++ v :: l2 := by
  induction l1 with
  | nil => simp
  | cons x xs ih => simp [List.insertIdx_succ_cons, ih]

theorem arrDiff_rt (n : Nat) : ∀ (olds news pre : List Json),
    olds.length + news.length ≤ n →
    (∀ x ∈ olds, ∀ y ∈ news, applyChanges x (diff x y) = some y) →
    applyChanges (.arr (pre ++ olds)) (arrDiff pre.length olds news) =
      some (.arr (pre ++ news)) := by
  induction n with
  | zero =>
      intro olds news pre hn hel
      rcases olds with _ | ⟨a, olds⟩ <;> rcases news with _ | ⟨b, news⟩ <;>
        simp at hn
      · simp [arrDiff, applyChanges]
  | succ n ih =>
      intro olds news pre hn hel
      rcases olds with _ | ⟨a, olds⟩ <;> rcases news with _ | ⟨b, news⟩
      · simp [arrDiff, applyChanges]
      · -- additions at the tail
        have hins : List.insertIdx pre.length b (pre ++ []) = pre ++ [b] := by
          simpa using insertIdx_len_append pre [] b
        simp only [arrDiff, applyChanges, applyOne, applyAt]
        rw [if_pos (by simp)]
        rw [hins]
        have := ih [] news (pre ++ [b]) (by simp at hn ⊢; omega)
          (fun x hx => absurd hx (by simp))
        simpa using this
      · -- removals at the tail, deepest first
        rw [show arrDiff pre.length (a :: olds) [] =
            arrDiff (pre.length + 1) olds [] ++
              [⟨[.idx pre.length], .remove, none⟩] from by
          simp [arrDiff]]
        rw [applyChanges_append]
        have h1 : applyChanges (.arr (pre ++ a :: olds))
            (arrDiff (pre.length + 1) olds []) = some (.arr (pre ++ [a])) := by
          have := ih olds [] (pre ++ [a]) (by simp at hn ⊢; omega)
            (fun x hx y hy => absurd hy (by simp))
          simpa using this
        rw [h1]
        have herase : (pre ++ [a]).eraseIdx pre.length = pre := by
          simpa using eraseIdx_len_append pre [] a
        simp only [Option.some_bind, applyChanges, applyOne, applyAt]
        rw [if_pos (by simp)]
        simp [herase]
      · -- common prefix: recurse elementwise
        simp only [arrDiff]
        rw [applyChanges_append]
        rw [applyChanges_push_idx (diff a b) (pre ++ a :: olds) pre.length a
          (diff_wf a b) (getElem?_len_append pre olds a)]
        rw [hel a (by simp) b (by simp)]
        simp only [Option.map_some', set_len_append, Option.some_bind]
        have := ih olds news (pre ++ [b]) (by simp at hn ⊢; omega)
          (fun x hx y hy => hel x (by simp [hx]) y (by simp [hy]))
        simpa using this

theorem canonList_mem (l : List Json) (h : canonList l = true) :
    ∀ x ∈ l, canon x = true := by
  induction l with
  | nil => intro x hx; cases hx
  | cons y ys ih =>
      simp only [canonList, Bool.and_eq_true] at h
      intro x hx
      rcases List.mem_cons.mp hx with rfl | hx
      · exact h.1
      · exact ih h.2 x hx

theorem canonFields_mem (m : List (String × Json)) (h : canonFields m = true) :
    ∀ p ∈ m, canon p.2 = true := by
  induction m with
  | nil => intro p hp; cases hp
  | cons q qs ih =>
      obtain ⟨k, v⟩ := q
      simp only [canonFields, Bool.and_eq_true] at h
      intro p hp
      rcases List.mem_cons.mp hp with rfl | hp
      · exact h.1
      · exact ih h.2 p hp

theorem pairwise_of_keysSorted (ks : List String) (h : keysSorted ks = true) :
    ks.Pairwise (· < ·) := by
  induction ks with
  | nil => exact List.Pairwise.nil
  | cons a t ih =>
      cases t with
      | nil => simp
      | cons b t2 =>
          simp only [keysSorted, Bool.and_eq_true, decide_eq_true_eq] at h
          have hp := ih h.2
          rw [List.pairwise_cons]
          refine ⟨?_, hp⟩
          intro x hx
          rcases List.mem_cons.mp hx with rfl | hx
          · exact h.1
          · rw [List.pairwise_cons] at hp
            exact lt_trans h.1 (hp.1 x hx)

theorem pairwise_keys_of_canon (m : List (String × Json))
    (h : keysSorted (m.map Prod.fst) = true) :
    m.Pairwise (fun p q => p.1 < q.1) := by
  have := pairwise_of_keysSorted (m.map Prod.fst) h
  exact (List.pairwise_map.mp this)

theorem diff_rt_aux (n : Nat) : ∀ (a b : Json), sizeOf a + sizeOf b ≤ n →
    canon a = true → canon b = true → applyChanges a (diff a b) = some b := by
  induction n with
  | zero =>
      intro a b hn
      cases a <;> simp at hn
  | succ n ih =>
      intro a b hn hca hcb
      cases a <;> cases b <;>
        first
        | (simp [diff, applyChanges, applyOne, applyAt]; done)
        | skip
      case bool.bool x y =>
          by_cases h : x = y
          · subst h; simp [diff, applyChanges]
          · simp [diff, h, applyChanges, applyOne, applyAt]
      case num.num x y =>
          by_cases h : x = y
          · subst h; simp [diff, applyChanges]
          · simp [diff, h, applyChanges, applyOne, applyAt]
      case str.str x y =>
          by_cases h : x = y
          · subst h; simp [diff, applyChanges]
          · simp [diff, h, applyChanges, applyOne, applyAt]
      case arr.arr as bs =>
          simp only [canon] at hca hcb
          have hel : ∀ x ∈ as, ∀ y ∈ bs, applyChanges x (diff x y) = some y := by
            intro x hx y hy
            have hsx := List.sizeOf_lt_of_mem hx
            have hsy := List.sizeOf_lt_of_mem hy
            refine ih x y (by simp at hn; omega)
              (canonList_mem as hca x hx) (canonList_mem bs hcb y hy)
          have := arrDiff_rt (as.length + bs.length) as bs [] le_rfl hel
          simpa [diff] using this
      case obj.obj ms ns =>
          simp only [canon, Bool.and_eq_true] at hca hcb
          have hel : ∀ x ∈ ms.map Prod.snd, ∀ y ∈ ns.map Prod.snd,
              applyChanges x (diff x y) = some y := by
            intro x hx y hy
            obtain ⟨p, hp, rfl⟩ := List.mem_map.mp hx
            obtain ⟨q, hq, rfl⟩ := List.mem_map.mp hy
            have hsp := List.sizeOf_lt_of_mem hp
            have hsq := List.sizeOf_lt_of_mem hq
            have hp2 : sizeOf p.2 < sizeOf ms := by
              obtain ⟨pk, pv⟩ := p
              simp at hsp ⊢
              omega
            have hq2 : sizeOf q.2 < sizeOf ns := by
              obtain ⟨qk, qv⟩ := q
              simp at hsq ⊢
              omega
            exact ih p.2 q.2 (by simp at hn; omega)
              (canonFields_mem ms hca.2 p hp) (canonFields_mem ns hcb.2 q hq)
          have := objDiff_rt (ms.length + ns.length) ms ns [] le_rfl hel
            (by simpa using pairwise_keys_of_canon ms hca.1)
            (by simpa using pairwise_keys_of_canon ns hcb.1)
          simpa [diff] using this

theorem diff_roundtrip (a b : Json) (hca : canon a = true)
    (hcb : canon b = true) : applyChanges a (diff a b) = some b :=
  diff_rt_aux (sizeOf a + sizeOf b) a b le_rfl hca hcb

theorem arrDiff_self (as : List Json) (hel : ∀ x ∈ as, diff x x = []) :
    ∀ i : Nat, arrDiff i as as = [] := by
  induction as with
  | nil => intro i; simp [arrDiff]
  | cons a as ih =>
      intro i
      simp only [arrDiff]
      rw [hel a (List.mem_cons_self _ _),
        ih (fun x hx => hel x (List.mem_cons_of_mem _ hx)) (i + 1)]
      simp

theorem objDiff_self (ms : List (String × Json))
    (hel : ∀ p ∈ ms, diff p.2 p.2 = []) : objDiff ms ms = [] := by
  induction ms with
  | nil => simp [objDiff]
  | cons p ms ih =>
      obtain ⟨k, v⟩ := p
      simp only [objDiff, lt_irrefl, if_false]
      rw [hel (k, v) (List.mem_cons_self _ _),
        ih (fun q hq => hel q (List.mem_cons_of_mem _ hq))]
      simp

theorem diff_self_aux (n : Nat) : ∀ a : Json, sizeOf a ≤ n → diff a a = [] := by
  induction n with
  | zero =>
      intro a hn
      cases a <;> simp at hn
  | succ n ih =>
      intro a hn
      cases a <;> try (simp [diff]; done)
      case arr l =>
          simp only [diff]
          exact arrDiff_self l
            (fun x hx => ih x (by
              have := List.sizeOf_lt_of_mem hx
              simp at hn
              omega)) 0
      case obj m =>
          simp only [diff]
          exact objDiff_self m
            (fun p hp => ih p.2 (by
              have := List.sizeOf_lt_of_mem hp
              obtain ⟨pk, pv⟩ := p
              simp at hn this ⊢
              omega))

theorem diff_self (a : Json) : diff a a = [] :=
  diff_self_aux (sizeOf a) a le_rfl

theorem eq_of_diff_nil (a b : Json) (hca : canon a = true)
    (hcb : canon b = true) (h : diff a b = []) : a = b := by
  have := diff_roundtrip a b hca hcb
  rw [h] at this
  simpa [applyChanges] using this

theorem track_store_changes_appendOnly (body : Body) (h : AppendOnly body) :
    AppendOnly (track_store_changes_run body) := by
  intro w
  obtain ⟨l, hl⟩ := h w
  simp only [track_store_changes_run]
  cases hb : (body w).2 with
  | false => exact ⟨l, by simp [hb, hl]⟩
  | true =>
      cases he : (store_changes w.store (body w).1.store).isEmpty with
      | true => exact ⟨l, by simp [hb, he, hl]⟩
      | false =>
          refine ⟨l ++ [.store (store_changes w.store (body w).1.store)], ?_⟩
          simp [hb, he, Transcript._event, hl]

theorem track_state_changes_appendOnly (type : Option String) (body : Body)
    (h : AppendOnly body) : AppendOnly (track_state_changes_run type body) := by
  intro w
  obtain ⟨l, hl⟩ := h w
  simp only [track_state_changes_run]
  by_cases hc : w.tr.name = SAMPLE_SUBTASK ∧ type ≠ some "solver"
  · rw [if_pos hc]
    cases hb : (body w).2 with
    | false => exact ⟨l, by simp [hb, hl]⟩
    | true =>
        cases he : (json_changes w.state (body w).1.state).isEmpty with
        | true => exact ⟨l, by simp [hb, he, hl]⟩
        | false =>
            refine ⟨l ++ [.state (json_changes w.state (body w).1.state)], ?_⟩
            simp [hb, he, Transcript._event, hl]
  · rw [if_neg hc]
    exact ⟨l, hl⟩

theorem step_run_appendOnly (name : String) (type : Option String)
    (body : Body) (h : AppendOnly body) :
    AppendOnly (step_run name type body) := by
  intro w
  obtain ⟨l, hl⟩ :=
    track_state_changes_appendOnly type (track_store_changes_run body)
      (track_store_changes_appendOnly body h)
      { w with tr := w.tr._event (.step .begin type name) }
  simp only [step_run]
  cases hr : (track_state_changes_run type (track_store_changes_run body)
      { w with tr := w.tr._event (.step .begin type name) }).2 with
  | false =>
      refine ⟨[.step .begin type name] ++ l, ?_⟩
      rw [if_neg (by simp)]
      rw [hl]
      simp [Transcript._event]
  | true =>
      refine ⟨[.step .begin type name] ++ l ++ [.step .end_ type name], ?_⟩
      rw [if_pos rfl]
      simp only [Transcript._event] at hl ⊢
      simp [hl]

/-- C1 (counterexample): `Transcript.step` has no finally clause, so on an
abnormal exit (error or cancellation) a concrete step scope appends the
step-begin event but no matching step-end event, refuting the claim that
the end event is appended on every exit path. -/
theorem step_end_missing_on_error :
    ((step_run "solve" none failing_body sample_world).1.tr.events.countP
        (is_step_begin "solve" none) = 1) ∧
    ((step_run "solve" none failing_body sample_world).1.tr.events.countP
        (is_step_end "solve" none) = 0) ∧
    (step_run "solve" none failing_body sample_world).2 = false := by
  refine ⟨?_, ?_, ?_⟩ <;> rfl

/-- C1 (amended): for an append-only body, a step scope that completes
normally brackets the inner events with exactly one step-begin and one
matching step-end, in that order; on an abnormal exit the scope appends
the begin event (and the inner events) but does not itself append a
step-end event. -/
theorem step_run_pairing (name : String) (type : Option String)
    (body : Body) (w : World) (hb : AppendOnly body) :
    ((step_run name type body w).2 = true →
      ∃ mid, ((step_run name type body w).1).tr._events =
        w.tr._events ++ [.step .begin type name] ++ mid ++
          [.step .end_ type name]) ∧
    ((step_run name type body w).2 = false →
      (step_run name type body w).1 =
        (track_state_changes_run type (track_store_changes_run body)
          { w with tr := w.tr._event (.step .begin type name) }).1 ∧
      ∃ mid, ((step_run name type body w).1).tr._events =
        w.tr._events ++ [.step .begin type name] ++ mid) := by
  obtain ⟨l, hl⟩ :=
    track_state_changes_appendOnly type (track_store_changes_run body)
      (track_store_changes_appendOnly body hb)
      { w with tr := w.tr._event (.step .begin type name) }
  constructor
  · intro hok
    simp only [step_run] at hok ⊢
    cases hr : (track_state_changes_run type (track_store_changes_run body)
        { w with tr := w.tr._event (.step .begin type name) }).2 with
    | false =>
        rw [hr] at hok
        simp at hok
    | true =>
        rw [if_pos rfl]
        refine ⟨l, ?_⟩
        simp only [Transcript._event] at hl ⊢
        simp [hl]
  · intro hbad
    simp only [step_run] at hbad ⊢
    cases hr : (track_state_changes_run type (track_store_changes_run body)
        { w with tr := w.tr._event (.step .begin type name) }).2 with
    | true =>
        rw [hr] at hbad
        simp at hbad
    | false =>
        rw [if_neg (by simp)]
        refine ⟨rfl, ⟨l, ?_⟩⟩
        simp only [Transcript._event] at hl ⊢
        simp [hl]

/-- C1 witness: the pairing theorem instantiated at a concrete
normally-completing step scope. -/
theorem step_run_pairing_witness :
    AppendOnly ok_body ∧
    (∃ mid, ((step_run "plan" none ok_body sample_world).1).tr._events =
      sample_world.tr._events ++ [.step .begin none "plan"] ++ mid ++
        [.step .end_ none "plan"]) := by
  have hb : AppendOnly ok_body := fun w => ⟨[], by simp [ok_body]⟩
  refine ⟨hb, (step_run_pairing "plan" none ok_body sample_world hb).1 ?_⟩
  simp [step_run, track_state_changes_run, track_store_changes_run, ok_body,
    sample_world, SAMPLE_SUBTASK, store_changes, json_changes, diff_self,
    Transcript.new]

/-- C4: a store-change-tracked scope whose body completes normally
appends nothing when the store snapshot is unchanged, and appends exactly
one store-change event carrying the non-empty diff otherwise. -/
theorem track_store_changes_correct (body : Body) (w : World)
    (hok : (body w).2 = true) (hca : canon w.store = true)
    (hcb : canon (body w).1.store = true) :
    (w.store = (body w).1.store →
      track_store_changes_run body w = ((body w).1, true)) ∧
    (w.store ≠ (body w).1.store →
      store_changes w.store (body w).1.store ≠ [] ∧
      track_store_changes_run body w =
        (with_event (body w).1
          (.store (store_changes w.store (body w).1.store)), true)) := by
  constructor
  · intro heq
    have hz : store_changes w.store (body w).1.store = [] := by
      rw [heq]
      exact diff_self _
    simp only [track_store_changes_run]
    rw [if_pos hok]
    simp [hz]
  · intro hne
    have hnz : store_changes w.store (body w).1.store ≠ [] := by
      intro h0
      exact hne (eq_of_diff_nil _ _ hca hcb h0)
    refine ⟨hnz, ?_⟩
    simp only [track_store_changes_run]
    rw [if_pos hok]
    rw [if_neg (by simpa using hnz)]
    simp [with_event]

/-- C5: state-change tracking is engaged exactly when the current
transcript is the top-level sample scope and the step type is not
"solver"; when not engaged it is a pass-through, and when engaged it
appends exactly one state-change event precisely when the task-state diff
is non-empty. -/
theorem track_state_changes_correct (type : Option String) (body : Body)
    (w : World) :
    (¬(w.tr.name = SAMPLE_SUBTASK ∧ type ≠ some "solver") →
      track_state_changes_run type body w = body w) ∧
    ((w.tr.name = SAMPLE_SUBTASK ∧ type ≠ some "solver") →
      (body w).2 = true → canon w.state = true →
      canon (body w).1.state = true →
      (w.state = (body w).1.state →
        track_state_changes_run type body w = ((body w).1, true)) ∧
      (w.state ≠ (body w).1.state →
        json_changes w.state (body w).1.state ≠ [] ∧
        track_state_changes_run type body w =
          (with_event (body w).1
            (.state (json_changes w.state (body w).1.state)), true))) := by
  constructor
  · intro hc
    simp only [track_state_changes_run]
    rw [if_neg hc]
  · intro hc hok hca hcb
    constructor
    · intro heq
      have hz : json_changes w.state (body w).1.state = [] := by
        rw [heq]
        exact diff_self _
      simp only [track_state_changes_run]
      rw [if_pos hc, if_pos hok]
      simp [hz]
    · intro hne
      have hnz : json_changes w.state (body w).1.state ≠ [] := by
        intro h0
        exact hne (eq_of_diff_nil _ _ hca hcb h0)
      refine ⟨hnz, ?_⟩
      simp only [track_state_changes_run]
      rw [if_pos hc, if_pos hok]
      rw [if_neg (by simpa using hnz)]
      simp [with_event]

/-- C6: for structurally compatible (canonical) snapshots, applying the
change records produced by diffing A against B to A reproduces B exactly,
and diffing a snapshot against itself yields the empty change list. -/
theorem json_diff_roundtrip_spec (a b : Json) (hca : canon a = true)
    (hcb : canon b = true) :
    applyChanges a (diff a b) = some b ∧ diff a a = [] :=
  ⟨diff_roundtrip a b hca hcb, diff_self a⟩

/-- C6 witness: the round-trip law instantiated at concrete nested
snapshots. -/
theorem json_diff_roundtrip_spec_witness :
    canon (Json.obj [("x", .num 1), ("y", .arr [.str "a"])]) = true ∧
    canon (Json.obj [("x", .num 2)]) = true ∧
    (applyChanges (Json.obj [("x", .num 1), ("y", .arr [.str "a"])])
        (diff (Json.obj [("x", .num 1), ("y", .arr [.str "a"])])
          (Json.obj [("x", .num 2)])) =
      some (Json.obj [("x", .num 2)]) ∧
      diff (Json.obj [("x", .num 1), ("y", .arr [.str "a"])])
        (Json.obj [("x", .num 1), ("y", .arr [.str "a"])]) = []) :=
  ⟨by simp [canon, canonList, canonFields, keysSorted] <;> decide,
    by simp [canon, canonList, canonFields, keysSorted],
    json_diff_roundtrip_spec _ _
      (by simp [canon, canonList, canonFields, keysSorted] <;> decide)
      (by simp [canon, canonList, canonFields, keysSorted])⟩

/-- C7: the transcript is append-only: `_event` appends exactly one
event at the tail (and is the single mutation primitive the public
operations go through), `info` appends one info event, the `events` view
is exactly the internal sequence in append order, and the step scope and
both change-tracking wrappers only ever extend the event sequence of an
append-only body. -/
theorem transcript_append_only :
    (∀ (t : Transcript) (e : EventM),
      (t._event e)._events = t._events ++ [e] ∧ (t._event e).name = t.name) ∧
    (∀ (t : Transcript) (d : Json),
      (t.info d)._events = t._events ++ [.info d]) ∧
    (∀ t : Transcript, t.events = t._events) ∧
    (∀ body : Body, AppendOnly body →
      AppendOnly (track_store_changes_run body)) ∧
    (∀ (type : Option String) (body : Body), AppendOnly body →
      AppendOnly (track_state_changes_run type body)) ∧
    (∀ (name : String) (type : Option String) (body : Body), AppendOnly body →
      AppendOnly (step_run name type body)) :=
  ⟨fun _ _ => ⟨rfl, rfl⟩, fun _ _ => rfl, fun _ => rfl,
    track_store_changes_appendOnly,
    track_state_changes_appendOnly,
    step_run_appendOnly⟩

/-- C7 witness: the append-only theorem instantiated at a concrete
store-tracked scope. -/
theorem transcript_append_only_witness :
    AppendOnly ok_body ∧
    ∃ l, ((track_store_changes_run ok_body sample_world).1).tr._events =
      sample_world.tr._events ++ l := by
  have hb : AppendOnly ok_body := fun w => ⟨[], by simp [ok_body]⟩
  exact ⟨hb, transcript_append_only.2.2.2.1 ok_body hb sample_world⟩

/-- C8: `transcript()` returns the context's bound transcript;
before any binding it returns the process-wide default transcript, which
is empty and has the empty name; `init_transcript` rebinds only the
context it is applied to, and a subtask (which runs on a copy of the
parent context) leaves the parent's binding and `transcript()` result
unchanged. -/
theorem transcript_context_isolation (c : Ctx) (t : Transcript)
    (child : Ctx → Ctx) :
    transcript { binding := none } = default_transcript ∧
    default_transcript.name = "" ∧
    default_transcript._events = [] ∧
    transcript (init_transcript c t) = t ∧
    (run_subtask c child).1 = c ∧
    transcript (run_subtask c child).1 = transcript c :=
  ⟨rfl, rfl, rfl, rfl, rfl, rfl⟩

/-- C9: the serialized form of an event timestamp is the wall-clock
body followed by an explicit timezone offset suffix `+HH:MM` or
`-HH:MM`, because `serialize_timestamp` converts with `astimezone`
before calling `isoformat`. -/
theorem serialize_timestamp_explicit_offset (localOffset : Int) (dt : PyDatetime) :
    ∃ sign hh mm : String,
      serialize_timestamp localOffset dt =
        wall_clock (astimezone localOffset dt) ++
          (sign ++ (hh ++ (":" ++ mm))) ∧
      (sign = "+" ∨ sign = "-") := by
  refine ⟨if localOffset < 0 then "-" else "+",
    two_digits (localOffset.natAbs / 60),
    two_digits (localOffset.natAbs % 60), ?_, ?_⟩
  · simp only [serialize_timestamp, isoformat, astimezone, offset_suffix]
    simp [String.append_assoc]
  · by_cases h : localOffset < 0 <;> simp [h]

/-- C2 (counterexample): a tool-call event whose task handle was set and
which has then been resolved (`pending` cleared) is not immune to
`_cancel`: the call still sets the cancelled marker, because the guard of
`ToolEvent._cancel` tests the task handle, not `pending`. -/
theorem cancel_after_resolution_sets_marker :
    resolved_with_task.pending = none ∧
    resolved_with_task.cancelled = false ∧
    resolved_with_task._cancel.cancelled = true := by
  refine ⟨rfl, rfl, rfl⟩

/-- C2 (amended): `_cancel` is a no-op exactly when no task handle has
been set; when a task handle is present it sets the cancelled marker even
if the event is already resolved, and cancelling a pending event with a
task handle leaves the cancelled property true after resolution. -/
theorem tool_cancel_guard (e : ToolEventM) :
    (e._task = none → e._cancel = e) ∧
    (e._task ≠ none → e._cancel.cancelled = true) ∧
    (∀ result truncated error events, e._task ≠ none →
      (e._cancel._set_result result truncated error events).pending = none ∧
      (e._cancel._set_result result truncated error events).cancelled =
        true) := by
  refine ⟨?_, ?_, ?_⟩
  · intro h
    simp [ToolEventM._cancel, h]
  · intro h
    rcases ht : e._task with _ | t
    · exact absurd ht h
    · simp [ToolEventM._cancel, ht, ToolEventM.cancelled]
  · intro result truncated error events h
    rcases ht : e._task with _ | t
    · exact absurd ht h
    · refine ⟨rfl, ?_⟩
      simp [ToolEventM._cancel, ht, ToolEventM._set_result,
        ToolEventM.cancelled]

/-- C2 witness: the guard theorem instantiated at a fresh event with no
task handle. -/
theorem tool_cancel_guard_witness :
    (fresh_tool_event "w2" "python" .null)._task = none ∧
    (fresh_tool_event "w2" "python" .null)._cancel =
      fresh_tool_event "w2" "python" .null :=
  ⟨rfl, (tool_cancel_guard (fresh_tool_event "w2" "python" .null)).1 rfl⟩

/-- C3 (counterexample): a second `_set_result` call on an already
resolved tool-call event is neither rejected nor a no-op: it silently
overwrites the resolution fields. -/
theorem second_resolution_overwrites :
    resolved_once.pending = none ∧
    resolved_once.result = .str "one" ∧
    resolved_twice.result = .str "two" ∧
    resolved_twice ≠ resolved_once := by
  refine ⟨rfl, rfl, rfl, ?_⟩
  intro h
  have := congrArg ToolEventM.result h
  simp [resolved_once, resolved_twice, ToolEventM._set_result,
    fresh_tool_event] at this

/-- C3 (amended): `_set_result` stores the result, truncation range,
error and nested events and clears `pending`; it is the only operation
among the event's operations that changes `pending`; a repeated
resolution overwrites the earlier one (last write wins), so resolving
twice equals resolving once with the later arguments and no state is
duplicated. -/
theorem set_result_resolution (e : ToolEventM) (result : Json)
    (truncated : Option (Nat × Nat)) (error : Option String)
    (events : List EventM) :
    (e._set_result result truncated error events).pending = none ∧
    (e._set_result result truncated error events).result = result ∧
    (e._set_result result truncated error events).truncated = truncated ∧
    (e._set_result result truncated error events).error = error ∧
    (e._set_result result truncated error events).events = events ∧
    e._cancel.pending = e.pending ∧
    (∀ task, (e._set_task task).pending = e.pending) ∧
    (∀ r2 t2 err2 evs2,
      (e._set_result result truncated error events)._set_result r2 t2 err2
          evs2 =
        e._set_result r2 t2 err2 evs2) := by
  refine ⟨rfl, rfl, rfl, rfl, rfl, ?_, fun _ => rfl, fun _ _ _ _ => rfl⟩
  rcases ht : e._task with _ | t <;> simp [ToolEventM._cancel, ht]

/-- C10: with no task handle set, `_cancel` does nothing and the
cancelled property stays false; no other operation sets the cancelled
marker, a fresh event is not cancelled, and the cancelled property is
true after `_cancel` only when a task handle was present. -/
theorem cancel_needs_task :
    (∀ e : ToolEventM, e._task = none → e._cancel = e) ∧
    (∀ e : ToolEventM, e._task = none → e._cancel.cancelled = e.cancelled) ∧
    (∀ id function arguments,
      (fresh_tool_event id function arguments).cancelled = false ∧
      (fresh_tool_event id function arguments)._task = none) ∧
    (∀ (e : ToolEventM) result truncated error events,
      (e._set_result result truncated error events)._cancelled =
        e._cancelled) ∧
    (∀ (e : ToolEventM) task, (e._set_task task)._cancelled = e._cancelled) ∧
    (∀ e : ToolEventM, e._task ≠ none → e._cancel.cancelled = true) := by
  refine ⟨?_, ?_, ?_, ?_, ?_, ?_⟩
  · intro e h
    simp [ToolEventM._cancel, h]
  · intro e h
    simp [ToolEventM._cancel, h]
  · intro id function arguments
    exact ⟨rfl, rfl⟩
  · intro e result truncated error events
    rfl
  · intro e task
    rfl
  · intro e h
    rcases ht : e._task with _ | t
    · exact absurd ht h
    · simp [ToolEventM._cancel, ht, ToolEventM.cancelled]

/-- C10 witness: the cancellation theorem instantiated at a fresh
event without a task handle. -/
theorem cancel_needs_task_witness :
    (fresh_tool_event "w3" "exec" .null)._task = none ∧
    (fresh_tool_event "w3" "exec" .null)._cancel.cancelled =
      (fresh_tool_event "w3" "exec" .null).cancelled :=
  ⟨rfl, cancel_needs_task.2.1 (fresh_tool_event "w3" "exec" .null) rfl⟩

/-- C4 witness: the tracking theorem instantiated at a concrete body
that writes the store. -/
theorem track_store_changes_correct_witness :
    (store_writing_body sample_world).2 = true ∧
    canon sample_world.store = true ∧
    canon (store_writing_body sample_world).1.store = true ∧
    sample_world.store ≠ (store_writing_body sample_world).1.store ∧
    store_changes sample_world.store
      (store_writing_body sample_world).1.store ≠ [] ∧
    track_store_changes_run store_writing_body sample_world =
      (with_event (store_writing_body sample_world).1
        (.store (store_changes sample_world.store
          (store_writing_body sample_world).1.store)), true) := by
  have hne : sample_world.store ≠ (store_writing_body sample_world).1.store :=
    by simp [sample_world, store_writing_body]
  have h := (track_store_changes_correct store_writing_body sample_world
    rfl rfl rfl).2 hne
  exact ⟨rfl, rfl, rfl, hne, h.1, h.2⟩

/-- C5 witness: the tracking theorem instantiated at an engaged scope
whose body changes the task state. -/
theorem track_state_changes_correct_witness :
    (sample_world.tr.name = SAMPLE_SUBTASK ∧
      (none : Option String) ≠ some "solver") ∧
    (state_writing_body sample_world).2 = true ∧
    sample_world.state ≠ (state_writing_body sample_world).1.state ∧
    json_changes sample_world.state
      (state_writing_body sample_world).1.state ≠ [] ∧
    track_state_changes_run none state_writing_body sample_world =
      (with_event (state_writing_body sample_world).1
        (.state (json_changes sample_world.state
          (state_writing_body sample_world).1.state)), true) := by
  have hc : sample_world.tr.name = SAMPLE_SUBTASK ∧
      (none : Option String) ≠ some "solver" := ⟨rfl, by simp⟩
  have hne : sample_world.state ≠ (state_writing_body sample_world).1.state :=
    by simp [sample_world, state_writing_body]
  have h := ((track_state_changes_correct none state_writing_body
    sample_world).2 hc rfl rfl rfl).2 hne
  exact ⟨hc, rfl, hne, h.1, h.2⟩
